import Mathlib

/-!
# Verification of VLD's internal heap (`src/vldheap.cpp`) and its load-cycle contract

Shallow embedding of the private tracking heap of Visual Leak Detector:
`vldnew` / `vlddelete` operating on the intrusive doubly-linked registry
rooted at `g_vldBlockList`, plus the load-cycle state machine exercised by
`tests/vld_unload/vld_unload.cpp`.

Memory is modelled as an association list from (header) addresses to block
headers; `RtlAllocateHeap` is modelled by an oracle parameter `allocAddr`
(`none` = allocation failure, `some a` = a block was carved out at header
address `a`).  Machine `size_t` arithmetic is `Nat` with an explicit
`% 2 ^ 64` at the one place the code increments a `size_t` counter.
-/

set_option autoImplicit false

namespace Vld

/-- Machine `size_t` wraps at `2 ^ 64` (the build is x64). -/
def SIZE_MOD : Nat := 2 ^ 64

/-- Value of `sizeof(vldblockheader_t)` on the x64 build: three pointers
(`next`, `prev`, `file`), an `int` padded to 8 bytes (`line`), and two
`size_t` fields (`serialNumber`, `size`).  The exact value is irrelevant
to the claims; only that it is a fixed positive constant matters. -/
def headerSize : Nat := 48

/-- Block header prepended to every allocation
(`vldblockheader_t`, used by `src/vldheap.cpp`).
`next`/`prev` are nullable pointers to other headers, modelled as
`Option` addresses; `file` is a nullable `const char *`. -/
structure vldblockheader_t where
  file : Option String
  line : Int
  serialNumber : Nat
  size : Nat
  next : Option Nat
  prev : Option Nat
  deriving Repr, DecidableEq

/-- The private heap's live cells: an association list from header address
to header contents.  Later entries shadowed by earlier ones never arise in
valid executions (fresh addresses are always consed at the front and erased
entirely). -/
abbrev Mem := List (Nat × vldblockheader_t)

/-- Read the header stored at address `a` (`none` = the address is not a
live cell of the private heap, so dereferencing it is undefined). -/
def memRead : Mem → Nat → Option vldblockheader_t
  | [], _ => none
  | (b, h) :: m, a => if a = b then some h else memRead m a

/-- Overwrite the header at address `a` (a store through a pointer); a
store to a non-live address never happens in the modelled code paths. -/
def memWrite : Mem → Nat → vldblockheader_t → Mem
  | [], _, _ => []
  | (b, h) :: m, a, h' =>
    if a = b then (b, h') :: memWrite m a h' else (b, h) :: memWrite m a h'

/-- Release the cell at address `a` back to the OS heap (`RtlFreeHeap`). -/
def memErase : Mem → Nat → Mem
  | [], _ => []
  | (b, h) :: m, a => if a = b then memErase m a else (b, h) :: memErase m a

/-- Macro `VLDBLOCKDATA(header)`: the usable data region starts right after the
header. -/
def VLDBLOCKDATA (header : Nat) : Nat := header + headerSize

/-- Macro `VLDBLOCKHEADER(block)`: recover the header from a data pointer by the
fixed offset. -/
def VLDBLOCKHEADER (block : Nat) : Nat := block - headerSize

/-- The global mutable state of `src/vldheap.cpp`: the private heap's live
cells, the registry head `g_vldBlockList`, and the function-local
`static size_t serialnumber` of `vldnew`. -/
structure VldHeapState where
  mem : Mem
  g_vldBlockList : Option Nat
  serialnumber : Nat
  deriving Repr, DecidableEq

/-- The state right after the private heap is (re)created: empty registry,
serial-number generator at 0. -/
def initHeap : VldHeapState :=
  { mem := [], g_vldBlockList := none, serialnumber := 0 }

/-- Outcome of running a fragment of the C code:
`abort` = an `assert` fired; `stuck` = undefined behaviour was reached
(a read through a pointer that is not a live cell); `ok` = normal
completion. -/
inductive VldResult (α : Type) where
  | abort : VldResult α
  | stuck : VldResult α
  | ok : α → VldResult α
  deriving Repr, DecidableEq

namespace VldResult

def map {α β : Type} (f : α → β) : VldResult α → VldResult β
  | .abort => .abort
  | .stuck => .stuck
  | .ok a => .ok (f a)

end VldResult

/-- The link-in step of `vldnew` (`src/vldheap.cpp:183-189`): the new
header (already filled, `next` pointing at the old head) is consed onto
the heap at address `a`, and if the old head exists its `prev` is patched
to point back at `a`. -/
def linkIn (m : Mem) (oldHead : Option Nat) (a : Nat)
    (header : vldblockheader_t) : VldResult Mem :=
  match oldHead with
  | none => .ok ((a, header) :: m)
  | some n =>
    match memRead ((a, header) :: m) n with
    | none => .stuck
    | some hn => .ok (memWrite ((a, header) :: m) n { hn with prev := some a })

/-- The header contents `vldnew` fills in right after a successful
`RtlAllocateHeap` (`src/vldheap.cpp:176-180` together with the link step's
`header->next = g_vldBlockList; header->prev = nullptr`). -/
def newHeader (s : VldHeapState) (size : Nat) (file : Option String)
    (line : Int) : vldblockheader_t :=
  { file := file, line := line, serialNumber := s.serialnumber,
    size := size, next := s.g_vldBlockList, prev := none }

/-- Function `vldnew(size, file, line)` (`src/vldheap.cpp:162-193`), with the result
of `RtlAllocateHeap` supplied by the oracle `allocAddr`.

* asserts `size > 0`, `file != nullptr`, `line > 0`;
* on allocation failure returns `nullptr` with no other effect (note the
  `serialnumber++` happens only after the null check);
* on success fills the header (`file`, `line`, `serialNumber = serialnumber++`,
  `size`, `next = g_vldBlockList`, `prev = nullptr`), links it at the
  front of the registry, and returns `VLDBLOCKDATA(header)`. -/
def vldnew (s : VldHeapState) (size : Nat) (file : Option String) (line : Int)
    (allocAddr : Option Nat) : VldResult (VldHeapState × Option Nat) :=
  if size > 0 ∧ file ≠ none ∧ line > 0 then
    match allocAddr with
    | none => .ok (s, none)
    | some a =>
      match linkIn s.mem s.g_vldBlockList a (newHeader s size file line) with
      | .abort => .abort
      | .stuck => .stuck
      | .ok m₂ =>
        .ok ({ mem := m₂, g_vldBlockList := some a,
               serialnumber := (s.serialnumber + 1) % SIZE_MOD },
             some (VLDBLOCKDATA a))
  else .abort

/-- The first unlink half of `vlddelete` (`src/vldheap.cpp:213-218`): if
the dying header has a predecessor, that predecessor's `next` is patched
to skip it; otherwise the registry head moves to the dying header's
`next`. -/
def unlinkPrev (m : Mem) (head : Option Nat) (h : vldblockheader_t) :
    VldResult (Mem × Option Nat) :=
  match h.prev with
  | some p =>
    match memRead m p with
    | none => .stuck
    | some hp => .ok (memWrite m p { hp with next := h.next }, head)
  | none => .ok (m, h.next)

/-- The second unlink half of `vlddelete` (`src/vldheap.cpp:220-222`): if
the dying header has a successor, that successor's `prev` is patched back
over it. -/
def unlinkNext (m : Mem) (h : vldblockheader_t) : VldResult Mem :=
  match h.next with
  | some n =>
    match memRead m n with
    | none => .stuck
    | some hn => .ok (memWrite m n { hn with prev := h.prev })
  | none => .ok m

/-- Function `vlddelete(block)` (`src/vldheap.cpp:204-228`).

* deleting `nullptr` is a no-op;
* otherwise the header is recovered with `VLDBLOCKHEADER`, unlinked from
  the registry (patching `prev->next` or the head, then `next->prev`), and
  the cell is released with `RtlFreeHeap` (which always succeeds on a live
  cell, so the `assert(freed)` never fires in the model). -/
def vlddelete (s : VldHeapState) (block : Option Nat) : VldResult VldHeapState :=
  match block with
  | none => .ok s
  | some bp =>
    match memRead s.mem (VLDBLOCKHEADER bp) with
    | none => .stuck
    | some h =>
      match unlinkPrev s.mem s.g_vldBlockList h with
      | .abort => .abort
      | .stuck => .stuck
      | .ok (m₁, head₁) =>
        match unlinkNext m₁ h with
        | .abort => .abort
        | .stuck => .stuck
        | .ok m₂ =>
          .ok { s with mem := memErase m₂ (VLDBLOCKHEADER bp),
                       g_vldBlockList := head₁ }

/-- One call into the allocator: either `vldnew` (with the allocation
oracle's answer baked in) or `vlddelete`. -/
inductive HeapOp where
  | alloc (size : Nat) (file : Option String) (line : Int) (allocAddr : Option Nat)
  | free (block : Option Nat)
  deriving Repr, DecidableEq

/-- Execute one operation, returning the new state and (for `alloc`) the
pointer `vldnew` returned. -/
def stepOp (s : VldHeapState) : HeapOp → VldResult (VldHeapState × Option Nat)
  | .alloc size file line allocAddr => vldnew s size file line allocAddr
  | .free block => (vlddelete s block).map (fun s' => (s', none))

/-- Execute a sequence of operations. -/
def run (s : VldHeapState) : List HeapOp → VldResult VldHeapState
  | [] => .ok s
  | op :: ops =>
    match stepOp s op with
    | .abort => .abort
    | .stuck => .stuck
    | .ok (s', _) => run s' ops

/-- Execute a sequence of operations, collecting, for every successful
allocation, the serial number actually stored in the returned block's
header (read back through `VLDBLOCKHEADER`). -/
def runSerials (s : VldHeapState) : List HeapOp → VldResult (VldHeapState × List Nat)
  | [] => .ok (s, [])
  | op :: ops =>
    match stepOp s op with
    | .abort => .abort
    | .stuck => .stuck
    | .ok (s', ret) =>
      let ev : List Nat :=
        match ret with
        | some p => ((memRead s'.mem (VLDBLOCKHEADER p)).map
            (fun h => h.serialNumber)).toList
        | none => []
      match runSerials s' ops with
      | .abort => .abort
      | .stuck => .stuck
      | .ok (sf, l) => .ok (sf, ev ++ l)

/-- Number of operations in the list that are allocations for which the OS
heap produced a block (exactly the successful allocations, in any run that
completes normally). -/
def countSucc : List HeapOp → Nat
  | [] => 0
  | .alloc _ _ _ (some _) :: ops => countSucc ops + 1
  | _ :: ops => countSucc ops

/-! ## The registry invariant

`chainB m prv first l` says that, starting from pointer `first` whose cell
is expected to carry back-pointer `prv`, following `next` pointers spells
out exactly the address list `l` and terminates in `none`.  The registry
invariant is the existence of such a finite list from `g_vldBlockList`
that is duplicate-free and covers exactly the live cells. -/

/-- The doubly-linked chain predicate over the modelled memory. -/
def chainB (m : Mem) : Option Nat → Option Nat → List Nat → Bool
  | _, first, [] => decide (first = none)
  | prv, first, b :: l =>
    decide (first = some b) &&
    (match memRead m b with
     | none => false
     | some h => decide (h.prev = prv) && chainB m (some b) h.next l)

/-- The registry invariant: some duplicate-free list `l` of addresses is
spelled out by the chain from `g_vldBlockList`, and the live cells are
exactly the members of `l`. -/
def registryInv (s : VldHeapState) : Prop :=
  ∃ l : List Nat,
    chainB s.mem none s.g_vldBlockList l = true ∧
    l.Nodup ∧
    ∀ b : Nat, (memRead s.mem b).isSome = true ↔ b ∈ l

/-- Validity of one operation in a state, as constrained by the physical
environment and the usage contract: the OS heap only hands out addresses
that are not currently live, frees are of null or of a data pointer whose
recovered header is live (i.e. a pointer previously returned by a
successful allocation and not yet freed), and `vldnew`'s asserted
preconditions hold. -/
def validOp (s : VldHeapState) : HeapOp → Prop
  | .alloc size file line allocAddr =>
    size > 0 ∧ file ≠ none ∧ line > 0 ∧
    ∀ a : Nat, allocAddr = some a → memRead s.mem a = none
  | .free block =>
    block = none ∨
    ∃ a : Nat, block = some (VLDBLOCKDATA a) ∧ (memRead s.mem a).isSome = true

/-- A sequence of operations each of which is valid in the state in which
it executes (and completes normally). -/
inductive ValidFrom : VldHeapState → List HeapOp → Prop
  | nil (s : VldHeapState) : ValidFrom s []
  | cons {s s' : VldHeapState} {op : HeapOp} {r : Option Nat} {ops : List HeapOp}
      (hv : validOp s op) (hstep : stepOp s op = .ok (s', r))
      (hrest : ValidFrom s' ops) : ValidFrom s (op :: ops)

/-! ## Lock discipline of `vldnew` / `vlddelete`

The claims about the critical section are about *where* in each function
the registry mutex is held, so we also embed each function body as the
sequence of its observable actions, in source order. -/

/-- The observable actions of the two allocator functions. -/
inductive HeapAction where
  | assertCheck   -- the `assert` lines at the top of `vldnew`
  | osAlloc       -- `RtlAllocateHeap`
  | nullCheck     -- `if (header == nullptr)` / `if (block == nullptr)`
  | headerFill    -- filling `file`/`line`/`serialNumber`/`size`
  | lockAcquire   -- `std::scoped_lock lock(get_heap_mutex())` construction
  | linkStep      -- splicing the header into `g_vldBlockList`
  | headerRecover -- `VLDBLOCKHEADER(block)`
  | unlinkStep    -- unsplicing the header from `g_vldBlockList`
  | osRelease     -- `RtlFreeHeap`
  | assertFreed   -- `assert(freed)`
  | lockRelease   -- `scoped_lock` destructor at end of scope
  deriving Repr, DecidableEq

/-- Body of `vldnew`, as its action sequence in source order
(`src/vldheap.cpp:164-193`): asserts, `RtlAllocateHeap`, null check,
header fill, lock acquisition at line 183, link-in, and the lock release
at the end of the function scope. -/
def vldnewActions : List HeapAction :=
  [.assertCheck, .osAlloc, .nullCheck, .headerFill,
   .lockAcquire, .linkStep, .lockRelease]

/-- Body of `vlddelete`, as its action sequence in source order
(`src/vldheap.cpp:206-228`): null check, header recovery, lock acquisition
at line 212, unlink, `RtlFreeHeap` at line 225, `assert(freed)`, and the
lock release at the end of the function scope. -/
def vlddeleteActions : List HeapAction :=
  [.nullCheck, .headerRecover, .lockAcquire, .unlinkStep,
   .osRelease, .assertFreed, .lockRelease]

/-- Auxiliary scan: does action `a` occur at a position where the lock
depth (number of acquisitions minus releases so far) is positive? -/
def lockHeldDuringAux : Nat → List HeapAction → HeapAction → Bool
  | _, [], _ => false
  | d, x :: tr, a =>
    (decide (x = a) && decide (0 < d)) ||
    lockHeldDuringAux
      (if x = .lockAcquire then d + 1 else if x = .lockRelease then d - 1 else d)
      tr a

/-- Is the registry mutex held while action `a` executes in trace `tr`? -/
def lockHeldDuring (tr : List HeapAction) (a : HeapAction) : Bool :=
  lockHeldDuringAux 0 tr a

/-! ## The load-cycle state machine

The lifecycle code of the repository (the DLL attach/detach handling and
the exported `VLDGetLeaksCount` entry point) is not under `src/`; only its
test `tests/vld_unload/vld_unload.cpp` is.  The state machine below is
therefore modelled from the spec (§3 "Load-Cycle Counter", §4.2, §6),
faithful to its transition table. -/

/-- Modelled from the spec: the process-wide lifecycle state that the
missing DLL attach/detach code of the repository maintains — the
load-cycle counter, the count of tracked (host-application) allocations,
the private heap, and how many final leak reports have been emitted. -/
structure VldLifecycleState where
  loadDepth : Nat
  trackedCount : Nat
  heap : VldHeapState
  reportsFired : Nat
  deriving Repr, DecidableEq

/-- The state before the module is ever loaded. -/
def initLife : VldLifecycleState :=
  { loadDepth := 0, trackedCount := 0, heap := initHeap, reportsFired := 0 }

/-- Lifecycle events: a module load, a module unload, and the (external)
interception layer recording one tracked host allocation. -/
inductive LifeOp where
  | load
  | unload
  | track
  deriving Repr, DecidableEq

/-- Modelled from the spec: the transition function of the missing
load-cycle state machine (§3, §4.2).  `0 → 1` initializes the private heap
(serial generator reset to 0, registry empty) and clears the tracked
count; nested loads only bump the counter; `N → N-1` for `N ≥ 2` only
drops it; `1 → 0` fires the final leak report and tears everything down;
a tracked allocation is recorded only while the module is active. -/
def lifeStep (s : VldLifecycleState) : LifeOp → VldLifecycleState
  | .load =>
    if s.loadDepth = 0 then
      { s with loadDepth := 1, trackedCount := 0, heap := initHeap }
    else
      { s with loadDepth := s.loadDepth + 1 }
  | .unload =>
    if s.loadDepth = 1 then
      { loadDepth := 0, trackedCount := 0, heap := initHeap,
        reportsFired := s.reportsFired + 1 }
    else if 2 ≤ s.loadDepth then
      { s with loadDepth := s.loadDepth - 1 }
    else s
  | .track =>
    if 1 ≤ s.loadDepth then
      { s with trackedCount := s.trackedCount + 1 }
    else s

/-- Run a sequence of lifecycle events. -/
def runLife (s : VldLifecycleState) (ops : List LifeOp) : VldLifecycleState :=
  ops.foldl lifeStep s

/-- Modelled from the spec: the leak-count query of the missing exported
entry point (spec §6; wrapper in `tests/vld_unload/vld_unload.cpp:15-27`):
while the module is loaded it returns the current tracked-allocation
count, and once the module is fully unloaded the entry point is gone and
callers observe the sentinel `-1`. -/
def VLDGetLeaksCount (s : VldLifecycleState) : Int :=
  if 1 ≤ s.loadDepth then (s.trackedCount : Int) else -1

/-! ## Basic lemmas about the memory model -/

theorem memRead_cons (a b : Nat) (h : vldblockheader_t) (m : Mem) :
    memRead ((b, h) :: m) a = if a = b then some h else memRead m a := rfl

theorem memRead_write_ne (m : Mem) (a b : Nat) (h : vldblockheader_t)
    (hne : b ≠ a) : memRead (memWrite m a h) b = memRead m b := by
  induction m with
  | nil => rfl
  | cons x m ih =>
    obtain ⟨c, hc⟩ := x
    by_cases hac : a = c
    · subst hac
      simp [memWrite, memRead, hne, ih]
    · by_cases hbc : b = c <;> simp [memWrite, memRead, hac, hbc, ih]

theorem memRead_write_self (m : Mem) (a : Nat) (h : vldblockheader_t)
    (hlive : (memRead m a).isSome = true) :
    memRead (memWrite m a h) a = some h := by
  induction m with
  | nil => simp [memRead] at hlive
  | cons x m ih =>
    obtain ⟨c, hc⟩ := x
    by_cases hac : a = c
    · subst hac
      simp [memWrite, memRead]
    · simp [memRead, hac] at hlive
      simp [memWrite, memRead, hac, ih hlive]

theorem memRead_write_isSome (m : Mem) (a b : Nat) (h : vldblockheader_t) :
    (memRead (memWrite m a h) b).isSome = (memRead m b).isSome := by
  induction m with
  | nil => rfl
  | cons x m ih =>
    obtain ⟨c, hc⟩ := x
    by_cases hac : a = c
    · subst hac
      by_cases hba : b = a <;> simp [memWrite, memRead, hba, ih]
    · by_cases hbc : b = c <;> simp [memWrite, memRead, hac, hbc, ih]

theorem memRead_erase_self (m : Mem) (a : Nat) :
    memRead (memErase m a) a = none := by
  induction m with
  | nil => rfl
  | cons x m ih =>
    obtain ⟨c, hc⟩ := x
    by_cases hac : a = c
    · subst hac
      simp [memErase, ih]
    · simp [memErase, memRead, hac, ih, Ne.symm hac]

theorem memRead_erase_ne (m : Mem) (a b : Nat) (hne : b ≠ a) :
    memRead (memErase m a) b = memRead m b := by
  induction m with
  | nil => rfl
  | cons x m ih =>
    obtain ⟨c, hc⟩ := x
    by_cases hac : a = c
    · subst hac
      simp [memErase, memRead, hne, ih]
    · by_cases hbc : b = c <;> simp [memErase, memRead, hac, hbc, ih]

/-! ## Characterization of `vldnew` and `vlddelete` -/

/-- The link-in step never fires an assertion. -/
theorem linkIn_ne_abort (m : Mem) (oldHead : Option Nat) (a : Nat)
    (header : vldblockheader_t) : linkIn m oldHead a header ≠ .abort := by
  unfold linkIn
  split
  · simp
  · split <;> simp

/-- After a successful link-in, the cell at the new address holds the new
header, except that its `prev` may have been patched (it is in the
degenerate aliasing case `oldHead = some a`, which freshness rules out in
real executions). -/
theorem linkIn_read_self {m m₂ : Mem} {oldHead : Option Nat} {a : Nat}
    {header : vldblockheader_t}
    (hok : linkIn m oldHead a header = .ok m₂) :
    ∃ hdr : vldblockheader_t,
      memRead m₂ a = some hdr ∧ hdr.file = header.file ∧
      hdr.line = header.line ∧ hdr.serialNumber = header.serialNumber ∧
      hdr.size = header.size ∧ hdr.next = header.next := by
  unfold linkIn at hok
  split at hok
  · simp only [VldResult.ok.injEq] at hok
    subst hok
    exact ⟨header, by simp [memRead_cons], rfl, rfl, rfl, rfl, rfl⟩
  · rename_i n
    split at hok
    · exact absurd hok (by simp)
    · rename_i hn hrn
      simp only [VldResult.ok.injEq] at hok
      subst hok
      by_cases hna : n = a
      · subst hna
        have hhn : header = hn := by
          rw [memRead_cons] at hrn
          simpa using hrn
        subst hhn
        exact ⟨_, memRead_write_self _ _ _ (by simp [memRead_cons]),
          rfl, rfl, rfl, rfl, rfl⟩
      · refine ⟨header, ?_, rfl, rfl, rfl, rfl, rfl⟩
        rw [memRead_write_ne _ _ _ _ (fun hcon => hna hcon.symm)]
        simp [memRead_cons]

/-- A successful `vldnew` through the oracle address `a` returns the data
pointer at fixed offset from `a`, stores a header there carrying exactly
the arguments and the pre-call serial number, and advances the serial
generator by one (as a `size_t`). -/
theorem vldnew_ok_some {s s' : VldHeapState} {size : Nat} {file : Option String}
    {line : Int} {a : Nat} {r : Option Nat}
    (hok : vldnew s size file line (some a) = .ok (s', r)) :
    r = some (VLDBLOCKDATA a) ∧
    s'.serialnumber = (s.serialnumber + 1) % SIZE_MOD ∧
    s'.g_vldBlockList = some a ∧
    ∃ hdr : vldblockheader_t,
      memRead s'.mem a = some hdr ∧ hdr.file = file ∧ hdr.line = line ∧
      hdr.serialNumber = s.serialnumber ∧ hdr.size = size ∧
      hdr.next = s.g_vldBlockList := by
  have hpre : size > 0 ∧ file ≠ none ∧ line > 0 := by
    by_contra hpre
    rw [show vldnew s size file line (some a) = .abort from by
      unfold vldnew; rw [if_neg hpre]] at hok
    exact absurd hok (by simp)
  simp only [vldnew, if_pos hpre] at hok
  split at hok
  · exact absurd hok (by simp)
  · exact absurd hok (by simp)
  · rename_i m₂ hl
    simp only [VldResult.ok.injEq, Prod.mk.injEq] at hok
    obtain ⟨hs', hr⟩ := hok
    subst hs'
    exact ⟨hr.symm, rfl, rfl, linkIn_read_self hl⟩

/-- When the OS heap fails, `vldnew` (with its preconditions satisfied)
returns `nullptr` and the state — registry, memory, and serial-number
generator — is exactly the pre-call state. -/
theorem vldnew_none_ok {s : VldHeapState} {size : Nat} {file : Option String}
    {line : Int} (hpre : size > 0 ∧ file ≠ none ∧ line > 0) :
    vldnew s size file line none = .ok (s, none) := by
  unfold vldnew
  rw [if_pos hpre]

/-- Function `vldnew` aborts (an `assert` fires) precisely when one of its asserted
preconditions is violated. -/
theorem vldnew_abort_iff {s : VldHeapState} {size : Nat} {file : Option String}
    {line : Int} {allocAddr : Option Nat} :
    vldnew s size file line allocAddr = .abort ↔
      ¬(size > 0 ∧ file ≠ none ∧ line > 0) := by
  by_cases hpre : size > 0 ∧ file ≠ none ∧ line > 0
  · simp only [vldnew, if_pos hpre]
    constructor
    · intro habs
      rcases allocAddr with _ | a
      · exact absurd habs (by simp)
      · simp only [] at habs
        split at habs
        · rename_i hl
          exact absurd hl (linkIn_ne_abort _ _ _ _)
        · exact absurd habs (by simp)
        · exact absurd habs (by simp)
    · intro h
      exact absurd hpre h
  · simp only [vldnew, if_neg hpre]
    simp [hpre]

/-- Function `vlddelete` never touches the serial-number generator. -/
theorem vlddelete_serial {s s' : VldHeapState} {block : Option Nat}
    (hok : vlddelete s block = .ok s') :
    s'.serialnumber = s.serialnumber := by
  unfold vlddelete at hok
  split at hok
  · simp only [VldResult.ok.injEq] at hok
    rw [← hok]
  · split at hok
    · exact absurd hok (by simp)
    · split at hok
      · exact absurd hok (by simp)
      · exact absurd hok (by simp)
      · split at hok
        · exact absurd hok (by simp)
        · exact absurd hok (by simp)
        · simp only [VldResult.ok.injEq] at hok
          rw [← hok]

/-! ## Chain lemmas -/

theorem chainB_nil (m : Mem) (prv first : Option Nat) :
    chainB m prv first [] = decide (first = none) := rfl

theorem chainB_cons_iff {m : Mem} {prv first : Option Nat} {b : Nat}
    {l : List Nat} :
    chainB m prv first (b :: l) = true ↔
      first = some b ∧ ∃ h : vldblockheader_t, memRead m b = some h ∧
        h.prev = prv ∧ chainB m (some b) h.next l = true := by
  show (decide (first = some b) &&
    (match memRead m b with
     | none => false
     | some h => decide (h.prev = prv) && chainB m (some b) h.next l)) = true ↔ _
  rcases hr : memRead m b with _ | h
  · simp [hr]
  · simp [hr]

theorem chainB_nil_iff {m : Mem} {prv first : Option Nat} :
    chainB m prv first [] = true ↔ first = none := by
  rw [chainB_nil]
  simp

/-- The chain's entry pointer is the head of the list it spells out. -/
theorem chainB_head {m : Mem} : ∀ {l : List Nat} {prv first : Option Nat},
    chainB m prv first l = true → first = l.head?
  | [], _, _, hc => by
    rw [chainB_nil_iff] at hc
    simp [hc]
  | b :: l, _, _, hc => by
    rw [chainB_cons_iff] at hc
    simp [hc.1]

/-- A chain only reads the cells of its own address list, so it is stable
under any memory change outside that list. -/
theorem chainB_frame {m m' : Mem} : ∀ {l : List Nat} {prv first : Option Nat},
    (∀ x ∈ l, memRead m' x = memRead m x) →
    chainB m prv first l = true → chainB m' prv first l = true
  | [], _, _, _, hc => hc
  | b :: l, prv, first, hfr, hc => by
    rw [chainB_cons_iff] at hc ⊢
    obtain ⟨hfirst, h, hrb, hprev, hrest⟩ := hc
    refine ⟨hfirst, h, ?_, hprev, ?_⟩
    · rw [hfr b (by simp), hrb]
    · exact chainB_frame (fun x hx => hfr x (by simp [hx])) hrest

/-- Every address on a chain is a live cell. -/
theorem chainB_mem_isSome {m : Mem} : ∀ {l : List Nat} {prv first : Option Nat},
    chainB m prv first l = true → ∀ b ∈ l, (memRead m b).isSome = true
  | [], _, _, _, b, hb => by simp at hb
  | c :: l, prv, first, hc, b, hb => by
    rw [chainB_cons_iff] at hc
    obtain ⟨_, h, hrc, _, hrest⟩ := hc
    rcases List.mem_cons.mp hb with rfl | hb
    · simp [hrc]
    · exact chainB_mem_isSome hrest b hb

/-- Forward neighbor coherence: on a chain, if a cell's `next` points
somewhere, that successor is live and points back with its `prev`. -/
theorem chainB_next_prev {m : Mem} : ∀ {l : List Nat} {prv first : Option Nat},
    chainB m prv first l = true →
    ∀ b ∈ l, ∀ hb : vldblockheader_t, memRead m b = some hb →
    ∀ n : Nat, hb.next = some n →
    ∃ hn : vldblockheader_t, memRead m n = some hn ∧ hn.prev = some b
  | [], _, _, _, b, hb => by simp at hb
  | c :: l, prv, first, hc, b, hb => by
    rw [chainB_cons_iff] at hc
    obtain ⟨hfirst, h, hrc, hprev, hrest⟩ := hc
    rcases List.mem_cons.mp hb with rfl | hb
    · intro hb hrb n hn
      rw [hrc] at hrb
      injection hrb with hrb
      subst hrb
      rw [hn] at hrest
      rcases l with _ | ⟨d, l⟩
      · rw [chainB_nil_iff] at hrest
        exact absurd hrest (by simp)
      · rw [chainB_cons_iff] at hrest
        obtain ⟨hfd, hd, hrd, hdprev, _⟩ := hrest
        injection hfd with hfd
        subst hfd
        exact ⟨hd, hrd, hdprev⟩
    · intro hbh hrb n hn
      exact chainB_next_prev hrest b hb hbh hrb n hn

/-- Backward neighbor coherence: on a chain whose incoming back-pointer is
itself coherent, if a cell's `prev` points somewhere, that predecessor is
live and points forward to it with its `next`. -/
theorem chainB_prev_next {m : Mem} : ∀ {l : List Nat} {prv first : Option Nat},
    chainB m prv first l = true →
    (∀ p : Nat, prv = some p →
      ∃ hp : vldblockheader_t, memRead m p = some hp ∧ hp.next = first) →
    ∀ b ∈ l, ∀ hb : vldblockheader_t, memRead m b = some hb →
    ∀ p : Nat, hb.prev = some p →
    ∃ hp : vldblockheader_t, memRead m p = some hp ∧ hp.next = some b
  | [], _, _, _, _, b, hb => by simp at hb
  | c :: l, prv, first, hc, haux, b, hb => by
    rw [chainB_cons_iff] at hc
    obtain ⟨hfirst, h, hrc, hprev, hrest⟩ := hc
    rcases List.mem_cons.mp hb with rfl | hb
    · intro hbh hrb p hp
      rw [hrc] at hrb
      injection hrb with hrb
      subst hrb
      rw [hprev] at hp
      obtain ⟨hp', hrp, hpn⟩ := haux p hp
      exact ⟨hp', hrp, by rw [hpn, hfirst]⟩
    · intro hbh hrb p hp
      refine chainB_prev_next hrest ?_ b hb hbh hrb p hp
      intro q hq
      injection hq with hq
      exact ⟨h, by rw [← hq]; exact hrc, rfl⟩

/-- A chain entered through a null pointer is empty. -/
theorem chainB_none_eq_nil {m : Mem} {prv : Option Nat} : ∀ {l : List Nat},
    chainB m prv none l = true → l = []
  | [], _ => rfl
  | b :: l, hc => by
    rw [chainB_cons_iff] at hc
    exact absurd hc.1 (by simp)

/-- Decomposing a chain around a designated member `a`: the cell at `a` is
live, its `next` is the head of the suffix, and its `prev` is the incoming
pointer (if `a` is first) or the last element of the prefix, whose cell
then points forward to `a`. -/
theorem chainB_decomp {m : Mem} {a : Nat} {l2 : List Nat} :
    ∀ (l1 : List Nat) {prv first : Option Nat},
    chainB m prv first (l1 ++ a :: l2) = true →
    ∃ h : vldblockheader_t, memRead m a = some h ∧ h.next = l2.head? ∧
      (l1 = [] → first = some a ∧ h.prev = prv) ∧
      (∀ p : Nat, l1.getLast? = some p → h.prev = some p ∧
        ∃ hp : vldblockheader_t, memRead m p = some hp ∧ hp.next = some a)
  | [], prv, first, hc => by
    rw [List.nil_append, chainB_cons_iff] at hc
    obtain ⟨hfirst, h, hra, hprev, hrest⟩ := hc
    refine ⟨h, hra, chainB_head hrest, fun _ => ⟨hfirst, hprev⟩, ?_⟩
    intro p hp
    simp at hp
  | c :: l1, prv, first, hc => by
    rw [List.cons_append, chainB_cons_iff] at hc
    obtain ⟨hfirst, hch, hrc, hcprev, hrest⟩ := hc
    obtain ⟨h, hra, hnext, hnil, hlast⟩ := chainB_decomp l1 hrest
    refine ⟨h, hra, hnext, by simp, ?_⟩
    intro p hp
    rcases l1 with _ | ⟨d, l1'⟩
    · have hpc : p = c := by
        simp [List.getLast?] at hp
        exact hp.symm
      subst hpc
      obtain ⟨hfa, hpr⟩ := hnil rfl
      exact ⟨hpr, hch, hrc, hfa⟩
    · rw [List.getLast?_cons_cons] at hp
      exact hlast p hp

theorem memRead_erase_isSome (m : Mem) (a x : Nat) :
    (memRead (memErase m a) x).isSome = true ↔
      (memRead m x).isSome = true ∧ x ≠ a := by
  by_cases hxa : x = a
  · subst hxa
    simp [memRead_erase_self]
  · rw [memRead_erase_ne m a x hxa]
    simp [hxa]

/-- Successful allocation at a fresh address preserves the registry
invariant (the new block becomes the head of the list). -/
theorem vldnew_preserves {s s' : VldHeapState} {size : Nat}
    {file : Option String} {line : Int} {a : Nat} {r : Option Nat}
    (hinv : registryInv s) (hfresh : memRead s.mem a = none)
    (hok : vldnew s size file line (some a) = .ok (s', r)) :
    registryInv s' := by
  obtain ⟨l, hchain, hnodup, hdom⟩ := hinv
  have hnotmem : a ∉ l := by
    intro hmem
    have := (hdom a).mpr hmem
    rw [hfresh] at this
    simp at this
  have hpre : size > 0 ∧ file ≠ none ∧ line > 0 := by
    by_contra hpre
    rw [show vldnew s size file line (some a) = .abort from by
      unfold vldnew; rw [if_neg hpre]] at hok
    exact absurd hok (by simp)
  simp only [vldnew, if_pos hpre] at hok
  split at hok
  · exact absurd hok (by simp)
  · exact absurd hok (by simp)
  · rename_i m₂ hl
    simp only [VldResult.ok.injEq, Prod.mk.injEq] at hok
    obtain ⟨hs', _⟩ := hok
    subst hs'
    unfold linkIn at hl
    rcases hh : s.g_vldBlockList with _ | n
    · -- empty registry: the list was empty, the new one is [a]
      rw [hh] at hl hchain
      have hlnil : l = [] := chainB_none_eq_nil hchain
      subst hlnil
      simp only [VldResult.ok.injEq] at hl
      subst hl
      refine ⟨[a], ?_, List.nodup_singleton a, ?_⟩
      · rw [chainB_cons_iff]
        refine ⟨rfl, newHeader s size file line, by simp [memRead_cons], rfl, ?_⟩
        rw [show (newHeader s size file line).next = none from by
          simp [newHeader, hh]]
        rw [chainB_nil_iff]
      · intro x
        by_cases hxa : x = a
        · subst hxa
          simp [memRead_cons]
        · rw [memRead_cons, if_neg hxa]
          have := hdom x
          simp only [List.not_mem_nil, iff_false] at this
          simp [this, hxa]
    · -- non-empty registry: old head n gets its prev patched to a
      rw [hh] at hl hchain
      simp only [] at hl
      have hlcons : some n = l.head? := chainB_head hchain
      rcases l with _ | ⟨n', t⟩
      · simp at hlcons
      · simp only [List.head?_cons, Option.some.injEq] at hlcons
        subst hlcons
        rw [chainB_cons_iff] at hchain
        obtain ⟨_, hn, hrn, hnprev, hrest⟩ := hchain
        have hna : n ≠ a := by
          intro hcon
          rw [hcon, hfresh] at hrn
          exact absurd hrn (by simp)
        rw [show memRead ((a, newHeader s size file line) :: s.mem) n = some hn
          from by rw [memRead_cons, if_neg hna]; exact hrn] at hl
        simp only [VldResult.ok.injEq] at hl
        subst hl
        have hreadn : memRead (memWrite ((a, newHeader s size file line) :: s.mem)
            n { hn with prev := some a }) n = some { hn with prev := some a } :=
          memRead_write_self _ _ _ (by rw [memRead_cons, if_neg hna]; simp [hrn])
        have hreada : memRead (memWrite ((a, newHeader s size file line) :: s.mem)
            n { hn with prev := some a }) a = some (newHeader s size file line) := by
          rw [memRead_write_ne _ _ _ _ hna.symm, memRead_cons, if_pos rfl]
        refine ⟨a :: n :: t, ?_, ?_, ?_⟩
        · rw [chainB_cons_iff]
          refine ⟨rfl, newHeader s size file line, hreada, rfl, ?_⟩
          rw [show (newHeader s size file line).next = some n from by
            simp [newHeader, hh]]
          rw [chainB_cons_iff]
          refine ⟨rfl, { hn with prev := some a }, hreadn, rfl, ?_⟩
          refine chainB_frame ?_ hrest
          intro x hx
          have hxn : x ≠ n := by
            intro hcon
            subst hcon
            exact absurd hx (List.Nodup.not_mem hnodup)
          have hxa : x ≠ a := by
            intro hcon
            subst hcon
            exact hnotmem (by simp [hx])
          rw [memRead_write_ne _ _ _ _ hxn, memRead_cons, if_neg hxa]
        · exact List.Nodup.cons hnotmem hnodup
        · intro x
          rw [memRead_write_isSome]
          by_cases hxa : x = a
          · subst hxa
            simp [memRead_cons]
          · rw [memRead_cons, if_neg hxa]
            rw [hdom x]
            simp [hxa]

/-- Rebuilding the chain after unlinking `a` from the middle: if the final
memory `m3` kills cell `a`, patches the predecessor `p`'s `next` to skip
`a`, patches the successor's `prev` back to `p`, and leaves every other
cell alone, then the chain with `a` spliced out still holds. -/
theorem chainB_delete_aux {m : Mem} (m3 : Mem) {a p : Nat}
    {h hp : vldblockheader_t} (l2 : List Nat)
    (hma : memRead m a = some h) (hprev : h.prev = some p)
    (hnext : h.next = l2.head?)
    (hmp : memRead m p = some hp)
    (hpp : memRead m3 p = some { hp with next := h.next })
    (hbb : ∀ b : Nat, ∀ hb : vldblockheader_t, l2.head? = some b →
      memRead m b = some hb → memRead m3 b = some { hb with prev := h.prev })
    (hx : ∀ x : Nat, x ≠ a → x ≠ p → l2.head? ≠ some x →
      memRead m3 x = memRead m x) :
    ∀ (l1 : List Nat) {prv first : Option Nat},
    l1.getLast? = some p →
    chainB m prv first (l1 ++ a :: l2) = true →
    (l1 ++ a :: l2).Nodup →
    chainB m3 prv first (l1 ++ l2) = true
  | [], _, _, hlast, _, _ => by simp at hlast
  | [c], prv, first, hlast, hchain, hnodup => by
    have hpc : p = c := by
      simp [List.getLast?] at hlast
      exact hlast.symm
    subst hpc
    simp only [List.cons_append, List.nil_append] at hchain hnodup ⊢
    rw [chainB_cons_iff] at hchain
    obtain ⟨hfirst, hc, hrc, hcprev, hrest⟩ := hchain
    have hcp : hp = hc := by
      rw [hmp] at hrc
      injection hrc with hrc'
    subst hcp
    rw [chainB_cons_iff] at hrest
    obtain ⟨hpnext, h', hra', _, hrest₂⟩ := hrest
    have hh' : h = h' := by
      rw [hma] at hra'
      injection hra' with hra''
    subst hh'
    rw [List.nodup_cons, List.nodup_cons] at hnodup
    obtain ⟨hcnot, hanot, hl2nodup⟩ := hnodup
    rw [chainB_cons_iff]
    refine ⟨hfirst, { hp with next := h.next }, hpp, hcprev, ?_⟩
    show chainB m3 (some p) h.next l2 = true
    rw [hnext]
    rcases hl2 : l2 with _ | ⟨b, t⟩
    · rw [chainB_nil_iff]
      rfl
    · subst hl2
      rw [chainB_cons_iff] at hrest₂
      obtain ⟨hnb, hb, hrb, hbprev, hrest₃⟩ := hrest₂
      rw [chainB_cons_iff]
      refine ⟨rfl, { hb with prev := h.prev }, hbb b hb rfl hrb, by
        show h.prev = some p; exact hprev, ?_⟩
      show chainB m3 (some b) hb.next t = true
      refine chainB_frame ?_ hrest₃
      intro x hxt
      refine hx x ?_ ?_ ?_
      · intro hcon
        subst hcon
        exact hanot (by simp [hxt])
      · intro hcon
        subst hcon
        exact hcnot (by simp [hxt])
      · intro hcon
        simp only [List.head?_cons, Option.some.injEq] at hcon
        subst hcon
        rw [List.nodup_cons] at hl2nodup
        exact hl2nodup.1 hxt
  | c :: d :: l1', prv, first, hlast, hchain, hnodup => by
    rw [List.getLast?_cons_cons] at hlast
    have hpmem : p ∈ d :: l1' := by
      obtain ⟨hne, hpe⟩ := List.mem_getLast?_eq_getLast (l := d :: l1') (x := p)
        (by rw [hlast]; rfl)
      rw [hpe]
      exact List.getLast_mem hne
    simp only [List.cons_append] at hchain hnodup ⊢
    rw [chainB_cons_iff] at hchain
    obtain ⟨hfirst, hc, hrc, hcprev, hrest⟩ := hchain
    rw [List.nodup_cons] at hnodup
    obtain ⟨hcnot, hnodup'⟩ := hnodup
    have hrec := chainB_delete_aux m3 l2 hma hprev hnext hmp hpp hbb hx
      (d :: l1') hlast hrest hnodup'
    rw [chainB_cons_iff]
    refine ⟨hfirst, hc, ?_, hcprev, hrec⟩
    refine (hx c ?_ ?_ ?_).trans hrc
    · intro hcon
      subst hcon
      exact hcnot (by simp)
    · intro hcon
      subst hcon
      refine hcnot ?_
      simp only [List.mem_cons, List.mem_append] at hpmem ⊢
      tauto
    · intro hcon
      have : c ∈ l2 := by
        rcases l2 with _ | ⟨b, t⟩
        · simp at hcon
        · simp only [List.head?_cons, Option.some.injEq] at hcon
          subst hcon
          simp
      exact hcnot (by simp [List.mem_append, this])

/-- Splicing the deleted element out of the membership view. -/
theorem mem_erase_middle {l1 l2 : List Nat} {a x : Nat} (hnot : a ∉ l1 ++ l2) :
    x ∈ l1 ++ a :: l2 ∧ x ≠ a ↔ x ∈ l1 ++ l2 := by
  simp only [List.mem_append, List.mem_cons] at *
  constructor
  · rintro ⟨h1 | (rfl | h1), hxa⟩
    · exact Or.inl h1
    · exact absurd rfl hxa
    · exact Or.inr h1
  · intro hx
    constructor
    · tauto
    · intro hcon
      subst hcon
      exact hnot hx

/-- Deleting a live block preserves the registry invariant: the block is
unlinked, its neighbors re-tied, and the rest of the list survives. -/
theorem vlddelete_preserves {s s' : VldHeapState} {a : Nat}
    (hinv : registryInv s) (hlive : (memRead s.mem a).isSome = true)
    (hok : vlddelete s (some (VLDBLOCKDATA a)) = .ok s') :
    registryInv s' := by
  obtain ⟨l, hchain, hnodup, hdom⟩ := hinv
  obtain ⟨h, hma⟩ := Option.isSome_iff_exists.mp hlive
  have hmem : a ∈ l := (hdom a).mp hlive
  obtain ⟨l1, l2, rfl⟩ := List.append_of_mem hmem
  obtain ⟨h', hma', hnext, hnil, hlast⟩ := chainB_decomp l1 hchain
  have hhh : h = h' := by
    rw [hma] at hma'
    injection hma' with e
  subst hhh
  have hba : VLDBLOCKHEADER (VLDBLOCKDATA a) = a := by
    unfold VLDBLOCKHEADER VLDBLOCKDATA
    omega
  simp only [vlddelete, hba, hma] at hok
  have hmid := List.nodup_middle.mp hnodup
  rw [List.nodup_cons] at hmid
  obtain ⟨hanotin, hnodup₂⟩ := hmid
  rcases List.eq_nil_or_concat' l1 with rfl | ⟨l1', p, rfl⟩
  · -- the deleted block is the head of the registry
    obtain ⟨hfirst, hprev⟩ := hnil rfl
    simp only [unlinkPrev, hprev] at hok
    simp only [List.nil_append] at hchain hnodup hdom hanotin hnodup₂ ⊢
    rcases hl2c : l2 with _ | ⟨b, t⟩
    · -- singleton registry becomes empty
      subst hl2c
      have hnone : h.next = none := by rw [hnext]; rfl
      simp only [unlinkNext, hnone] at hok
      simp only [VldResult.ok.injEq] at hok
      subst hok
      refine ⟨[], ?_, List.nodup_nil, ?_⟩
      · show chainB (memErase s.mem a) none none [] = true
        rw [chainB_nil_iff]
      · intro x
        show (memRead (memErase s.mem a) x).isSome = true ↔ x ∈ ([] : List Nat)
        rw [memRead_erase_isSome]
        simp only [List.not_mem_nil, iff_false, not_and]
        intro hxs
        have := (hdom x).mp hxs
        simp only [List.mem_singleton] at this
        simp [this]
    · -- head deleted, its successor becomes the head
      subst hl2c
      have hnextb : h.next = some b := by rw [hnext]; rfl
      rw [chainB_cons_iff] at hchain
      obtain ⟨_, h₂, hma₂, _, hrest⟩ := hchain
      have hh₂ : h = h₂ := by
        rw [hma] at hma₂
        injection hma₂ with e
      subst hh₂
      rw [hnextb, chainB_cons_iff] at hrest
      obtain ⟨_, hb, hrb, hbprev, hrest₂⟩ := hrest
      have hbna : b ≠ a := by
        intro hcon
        exact hanotin (by simp [hcon])
      simp only [unlinkNext, hnextb, hrb] at hok
      simp only [VldResult.ok.injEq] at hok
      subst hok
      have hm3b : memRead (memErase (memWrite s.mem b { hb with prev := h.prev })
          a) b = some { hb with prev := h.prev } := by
        rw [memRead_erase_ne _ _ _ hbna]
        exact memRead_write_self _ _ _ (by simp [hrb])
      refine ⟨b :: t, ?_, hnodup₂, ?_⟩
      · show chainB (memErase (memWrite s.mem b { hb with prev := h.prev }) a)
          none (some b) (b :: t) = true
        rw [chainB_cons_iff]
        refine ⟨rfl, { hb with prev := h.prev }, hm3b, hprev, ?_⟩
        show chainB _ (some b) hb.next t = true
        refine chainB_frame ?_ hrest₂
        intro x hxt
        have hxa : x ≠ a := by
          intro hcon
          subst hcon
          exact hanotin (by simp [hxt])
        have hxb : x ≠ b := by
          intro hcon
          subst hcon
          rw [List.nodup_cons] at hnodup₂
          exact hnodup₂.1 hxt
        rw [memRead_erase_ne _ _ _ hxa, memRead_write_ne _ _ _ _ hxb]
      · intro x
        rw [memRead_erase_isSome, memRead_write_isSome, hdom x]
        exact @mem_erase_middle [] (b :: t) a x hanotin
  · -- the deleted block has a predecessor p
    have hlastp : (l1' ++ [p]).getLast? = some p := by
      rw [List.getLast?_append_cons]
      rfl
    obtain ⟨hprev, hp, hmp, hpnext⟩ := hlast p hlastp
    have hpna : p ≠ a := by
      intro hcon
      subst hcon
      exact hanotin (by simp)
    simp only [unlinkPrev, hprev, hmp] at hok
    rcases hl2c : l2 with _ | ⟨b, t⟩
    · -- the deleted block is the last element
      subst hl2c
      have hnone : h.next = none := by rw [hnext]; rfl
      simp only [unlinkNext, hnone] at hok
      simp only [VldResult.ok.injEq] at hok
      subst hok
      have hpp : memRead (memErase (memWrite s.mem p { hp with next := none })
          a) p = some { hp with next := none } := by
        rw [memRead_erase_ne _ _ _ hpna]
        exact memRead_write_self _ _ _ (by simp [hmp])
      have hchain3 := chainB_delete_aux (memErase
          (memWrite s.mem p { hp with next := none }) a) []
        hma hprev (by rw [hnone]; rfl) hmp (by rw [hnone]; exact hpp)
        (by intro b hb hcon; exact absurd hcon (by simp))
        (by
          intro x hxa hxp _
          rw [memRead_erase_ne _ _ _ hxa, memRead_write_ne _ _ _ _ hxp])
        (l1' ++ [p]) hlastp hchain hnodup
      rw [List.append_nil] at hchain3 hanotin hnodup₂
      refine ⟨l1' ++ [p], hchain3, hnodup₂, ?_⟩
      intro x
      rw [memRead_erase_isSome, memRead_write_isSome, hdom x]
      have := @mem_erase_middle (l1' ++ [p]) [] a x
        (by rw [List.append_nil]; exact hanotin)
      rw [List.append_nil] at this
      exact this
    · -- the deleted block has both neighbors
      subst hl2c
      have hnextb : h.next = some b := by rw [hnext]; rfl
      have hbmem : b ∈ (l1' ++ [p]) ++ a :: b :: t := by simp
      obtain ⟨hb, hrb⟩ := Option.isSome_iff_exists.mp
        (chainB_mem_isSome hchain b hbmem)
      have hbna : b ≠ a := by
        intro hcon
        exact hanotin (by simp [hcon])
      have hpmem : p ∈ l1' ++ [p] := by simp
      have hbnp : b ≠ p := by
        intro hcon
        subst hcon
        obtain ⟨_, _, hdisj⟩ := List.nodup_append.mp hnodup₂
        exact hdisj hpmem (by simp)
      simp only [unlinkNext, hnextb] at hok
      rw [show memRead (memWrite s.mem p { hp with next := some b }) b = some hb
        from by rw [memRead_write_ne _ _ _ _ hbnp]; exact hrb] at hok
      simp only [VldResult.ok.injEq] at hok
      subst hok
      have hpp : memRead (memErase (memWrite (memWrite s.mem p
          { hp with next := some b }) b { hb with prev := h.prev }) a) p =
          some { hp with next := some b } := by
        rw [memRead_erase_ne _ _ _ hpna, memRead_write_ne _ _ _ _ hbnp.symm]
        exact memRead_write_self _ _ _ (by simp [hmp])
      have hbb : ∀ b' : Nat, ∀ hb' : vldblockheader_t,
          (b :: t).head? = some b' → memRead s.mem b' = some hb' →
          memRead (memErase (memWrite (memWrite s.mem p
            { hp with next := some b }) b { hb with prev := h.prev }) a) b' =
            some { hb' with prev := h.prev } := by
        intro b' hb' hcon hrb'
        simp only [List.head?_cons, Option.some.injEq] at hcon
        subst hcon
        have hbb' : hb = hb' := by
          rw [hrb] at hrb'
          injection hrb' with e
        subst hbb'
        rw [memRead_erase_ne _ _ _ hbna]
        refine memRead_write_self _ _ _ ?_
        rw [memRead_write_ne _ _ _ _ hbnp]
        simp [hrb]
      have hchain3 := chainB_delete_aux (memErase (memWrite (memWrite s.mem
          p { hp with next := some b }) b { hb with prev := h.prev }) a)
        (b :: t)
        hma hprev (by rw [hnextb]; rfl) hmp (by rw [hnextb]; exact hpp) hbb
        (by
          intro x hxa hxp hxb
          have hxb' : x ≠ b := by
            intro hcon
            subst hcon
            exact hxb rfl
          rw [memRead_erase_ne _ _ _ hxa, memRead_write_ne _ _ _ _ hxb',
            memRead_write_ne _ _ _ _ hxp])
        (l1' ++ [p]) hlastp hchain hnodup
      refine ⟨(l1' ++ [p]) ++ b :: t, hchain3, hnodup₂, ?_⟩
      intro x
      rw [memRead_erase_isSome, memRead_write_isSome, memRead_write_isSome,
        hdom x]
      exact mem_erase_middle hanotin

/-! ## Runs: invariant preservation and serial-number evolution -/

/-- The registry invariant holds in the initial state. -/
theorem registryInv_init : registryInv initHeap := by
  refine ⟨[], ?_, List.nodup_nil, ?_⟩
  · rw [chainB_nil_iff]
    rfl
  · intro b
    simp [initHeap, memRead]

/-- One valid operation preserves the registry invariant. -/
theorem stepOp_preserves {s s' : VldHeapState} {op : HeapOp} {r : Option Nat}
    (hinv : registryInv s) (hv : validOp s op)
    (hstep : stepOp s op = .ok (s', r)) : registryInv s' := by
  cases op with
  | alloc size file line allocAddr =>
    obtain ⟨h1, h2, h3, hfr⟩ := hv
    rcases allocAddr with _ | a
    · simp only [stepOp] at hstep
      rw [vldnew_none_ok ⟨h1, h2, h3⟩] at hstep
      simp only [VldResult.ok.injEq, Prod.mk.injEq] at hstep
      rw [← hstep.1]
      exact hinv
    · exact vldnew_preserves hinv (hfr a rfl) hstep
  | free block =>
    simp only [stepOp] at hstep
    rcases hd : vlddelete s block with _ | _ | s₂
    · rw [hd] at hstep
      exact absurd hstep (by simp [VldResult.map])
    · rw [hd] at hstep
      exact absurd hstep (by simp [VldResult.map])
    · rw [hd] at hstep
      simp only [VldResult.map, VldResult.ok.injEq, Prod.mk.injEq] at hstep
      rw [← hstep.1]
      rcases hv with rfl | ⟨a, rfl, hlive⟩
      · have hss : s = s₂ := by
          have : vlddelete s none = .ok s := rfl
          rw [this] at hd
          injection hd
      -- hd : .ok s = .ok s₂
        rw [← hss]
        exact hinv
      · exact vlddelete_preserves hinv hlive hd

/-- A valid trace started in an invariant-satisfying state completes
normally and preserves the invariant. -/
theorem run_validFrom {s : VldHeapState} {ops : List HeapOp}
    (hv : ValidFrom s ops) (hinv : registryInv s) :
    ∃ sf : VldHeapState, run s ops = .ok sf ∧ registryInv sf := by
  induction hv with
  | nil s => exact ⟨s, rfl, hinv⟩
  | @cons s s' op r ops hvo hstep hrest ih =>
    have hinv' := stepOp_preserves hinv hvo hstep
    obtain ⟨sf, hrun, hinvf⟩ := ih hinv'
    refine ⟨sf, ?_, hinvf⟩
    simp only [run, hstep]
    exact hrun

/-- Any step that is not a successful allocation leaves the serial-number
generator unchanged. -/
theorem stepOp_serial {s s' : VldHeapState} {op : HeapOp} {r : Option Nat}
    (hstep : stepOp s op = .ok (s', r)) :
    (∀ size : Nat, ∀ file : Option String, ∀ line : Int, ∀ a : Nat,
      op ≠ .alloc size file line (some a)) →
    s'.serialnumber = s.serialnumber := by
  intro hno
  cases op with
  | alloc size file line allocAddr =>
    rcases allocAddr with _ | a
    · simp only [stepOp] at hstep
      by_cases hpre : size > 0 ∧ file ≠ none ∧ line > 0
      · rw [vldnew_none_ok hpre] at hstep
        simp only [VldResult.ok.injEq, Prod.mk.injEq] at hstep
        rw [← hstep.1]
      · rw [show vldnew s size file line none = .abort from by
          unfold vldnew; rw [if_neg hpre]] at hstep
        exact absurd hstep (by simp)
    · exact absurd rfl (hno size file line a)
  | free block =>
    simp only [stepOp] at hstep
    rcases hd : vlddelete s block with _ | _ | s₂
    · rw [hd] at hstep
      exact absurd hstep (by simp [VldResult.map])
    · rw [hd] at hstep
      exact absurd hstep (by simp [VldResult.map])
    · rw [hd] at hstep
      simp only [VldResult.map, VldResult.ok.injEq, Prod.mk.injEq] at hstep
      rw [← hstep.1]
      exact vlddelete_serial hd

/-- Serial numbers recorded by a completed run: they are exactly the
consecutive block `[s.serialnumber, …, s.serialnumber + k - 1]` where `k`
is the number of successful allocations, provided the `size_t` generator
does not wrap. -/
theorem runSerials_spec : ∀ {ops : List HeapOp} {s sf : VldHeapState}
    {l : List Nat},
    runSerials s ops = .ok (sf, l) →
    s.serialnumber + countSucc ops < SIZE_MOD →
    l = List.range' s.serialnumber (countSucc ops) ∧
      sf.serialnumber = s.serialnumber + countSucc ops
  | [], s, sf, l, hrun, _ => by
    simp only [runSerials, VldResult.ok.injEq, Prod.mk.injEq] at hrun
    obtain ⟨h1, h2⟩ := hrun
    subst h1
    subst h2
    simp [countSucc]
  | op :: ops, s, sf, l, hrun, hbound => by
    simp only [runSerials] at hrun
    rcases heq : stepOp s op with _ | _ | ⟨s', ret⟩
    · rw [heq] at hrun
      exact absurd hrun (by simp)
    · rw [heq] at hrun
      exact absurd hrun (by simp)
    · rw [heq] at hrun
      simp only [] at hrun
      rcases hrec : runSerials s' ops with _ | _ | ⟨sf', l'⟩
      · rw [hrec] at hrun
        exact absurd hrun (by simp)
      · rw [hrec] at hrun
        exact absurd hrun (by simp)
      · rw [hrec] at hrun
        simp only [VldResult.ok.injEq, Prod.mk.injEq] at hrun
        obtain ⟨h1, h2⟩ := hrun
        subst h1
        subst h2
        cases op with
        | alloc size file line allocAddr =>
          rcases allocAddr with _ | a
          · -- failed allocation: no event, serial untouched
            have hser : s'.serialnumber = s.serialnumber :=
              stepOp_serial heq (by intro _ _ _ _ hcon; exact absurd hcon (by simp))
            have hretn : ret = none := by
              simp only [stepOp] at heq
              by_cases hpre : size > 0 ∧ file ≠ none ∧ line > 0
              · rw [vldnew_none_ok hpre] at heq
                simp only [VldResult.ok.injEq, Prod.mk.injEq] at heq
                exact heq.2.symm
              · rw [show vldnew s size file line none = .abort from by
                  unfold vldnew; rw [if_neg hpre]] at heq
                exact absurd heq (by simp)
            subst hretn
            have hcount : countSucc (HeapOp.alloc size file line none :: ops) =
                countSucc ops := rfl
            rw [hcount] at hbound ⊢
            rw [← hser] at hbound
            obtain ⟨hl, hsf⟩ := runSerials_spec hrec hbound
            rw [hser] at hl hsf
            exact ⟨by simp [hl], hsf⟩
          · -- successful allocation: records the pre-call serial number
            simp only [stepOp] at heq
            obtain ⟨hret, hser, _, hdr, hread, _, _, hsn, _, _⟩ :=
              vldnew_ok_some heq
            subst hret
            have hcount : countSucc (HeapOp.alloc size file line (some a) :: ops) =
                countSucc ops + 1 := rfl
            rw [hcount] at hbound ⊢
            have hnowrap : s.serialnumber + 1 < SIZE_MOD := by omega
            have hser' : s'.serialnumber = s.serialnumber + 1 := by
              rw [hser, Nat.mod_eq_of_lt hnowrap]
            have hbound' : s'.serialnumber + countSucc ops < SIZE_MOD := by
              rw [hser']
              omega
            obtain ⟨hl, hsf⟩ := runSerials_spec hrec hbound'
            have hba : VLDBLOCKHEADER (VLDBLOCKDATA a) = a := by
              unfold VLDBLOCKHEADER VLDBLOCKDATA
              omega
            constructor
            · show (Option.map (fun h => h.serialNumber)
                  (memRead s'.mem (VLDBLOCKHEADER (VLDBLOCKDATA a)))).toList ++ l' =
                List.range' s.serialnumber (countSucc ops + 1)
              rw [hba, hread]
              show hdr.serialNumber :: l' = List.range' s.serialnumber (countSucc ops + 1)
              rw [hl, hser', hsn, List.range'_succ]
            · rw [hsf, hser']
              omega
        | free block =>
          have hser : s'.serialnumber = s.serialnumber :=
            stepOp_serial heq (by intro _ _ _ _ hcon; exact absurd hcon (by simp))
          have hretn : ret = none := by
            simp only [stepOp] at heq
            rcases hd : vlddelete s block with _ | _ | s₂
            · rw [hd] at heq
              exact absurd heq (by simp [VldResult.map])
            · rw [hd] at heq
              exact absurd heq (by simp [VldResult.map])
            · rw [hd] at heq
              simp only [VldResult.map, VldResult.ok.injEq, Prod.mk.injEq] at heq
              exact heq.2.symm
          subst hretn
          have hcount : countSucc (HeapOp.free block :: ops) = countSucc ops := rfl
          rw [hcount] at hbound ⊢
          rw [← hser] at hbound
          obtain ⟨hl, hsf⟩ := runSerials_spec hrec hbound
          rw [hser] at hl hsf
          exact ⟨by simp [hl], hsf⟩

/-- A completed run containing no successful allocation leaves the
serial-number generator untouched. -/
theorem run_serial_no_alloc : ∀ {ops : List HeapOp} {s sf : VldHeapState},
    run s ops = .ok sf → countSucc ops = 0 → sf.serialnumber = s.serialnumber
  | [], s, sf, hrun, _ => by
    simp only [run, VldResult.ok.injEq] at hrun
    rw [← hrun]
  | op :: ops, s, sf, hrun, hcount => by
    simp only [run] at hrun
    rcases heq : stepOp s op with _ | _ | ⟨s', r⟩
    · rw [heq] at hrun
      exact absurd hrun (by simp)
    · rw [heq] at hrun
      exact absurd hrun (by simp)
    · rw [heq] at hrun
      simp only [] at hrun
      have hop : ∀ (size : Nat) (file : Option String) (line : Int) (a : Nat),
          op ≠ .alloc size file line (some a) := by
        intro size file line a hcon
        subst hcon
        simp [countSucc] at hcount
      have hcount' : countSucc ops = 0 := by
        cases op with
        | alloc size file line aa =>
          rcases aa with _ | a
          · exact hcount
          · exact absurd rfl (hop size file line a)
        | free block => exact hcount
      rw [run_serial_no_alloc hrun hcount', stepOp_serial heq hop]

/-- The registry shape asserted by the spec (§3 Invariant): some
duplicate-free address list is spelled out by the chain from the head and
covers exactly the live cells; the head's `prev` is null; neighbor
pointers are mutually coherent. -/
def registryOk (s : VldHeapState) : Prop :=
  (∃ l : List Nat,
    chainB s.mem none s.g_vldBlockList l = true ∧ l.Nodup ∧
    (∀ b : Nat, (memRead s.mem b).isSome = true ↔ b ∈ l)) ∧
  (∀ x : Nat, ∀ hx : vldblockheader_t, s.g_vldBlockList = some x →
    memRead s.mem x = some hx → hx.prev = none) ∧
  (∀ b : Nat, ∀ hb : vldblockheader_t, memRead s.mem b = some hb →
    (∀ n : Nat, hb.next = some n →
      ∃ hn : vldblockheader_t, memRead s.mem n = some hn ∧ hn.prev = some b) ∧
    (∀ p : Nat, hb.prev = some p →
      ∃ hp : vldblockheader_t, memRead s.mem p = some hp ∧ hp.next = some b))

/-- The claim-level registry shape follows from the invariant. -/
theorem registryInv_registryOk {s : VldHeapState} (hinv : registryInv s) :
    registryOk s := by
  obtain ⟨l, hchain, hnodup, hdom⟩ := hinv
  refine ⟨⟨l, hchain, hnodup, hdom⟩, ?_, ?_⟩
  · intro x hx hhead hrx
    have hfirst := chainB_head hchain
    rcases l with _ | ⟨c, t⟩
    · rw [hhead] at hfirst
      exact absurd hfirst (by simp)
    · rw [hhead] at hfirst
      simp only [List.head?_cons, Option.some.injEq] at hfirst
      subst hfirst
      rw [chainB_cons_iff] at hchain
      obtain ⟨_, h, hrc, hprev, _⟩ := hchain
      rw [hrc] at hrx
      injection hrx with hrx'
      rw [← hrx']
      exact hprev
  · intro b hb hrb
    have hbmem : b ∈ l := (hdom b).mp (by simp [hrb])
    constructor
    · intro n hn
      exact chainB_next_prev hchain b hbmem hb hrb n hn
    · intro p hp
      refine chainB_prev_next hchain ?_ b hbmem hb hrb p hp
      intro q hq
      exact absurd hq (by simp)

/-! ## Heap claims -/

/-- Claim C2: After every finite sequence of allocate and deallocate
operations — deallocate applied only to pointers returned by successful
allocates that are still live, with the OS heap handing out fresh
addresses — the registry satisfies: every live block appears exactly once,
the list terminates (no cycles), the head block's `prev` is null, and for
every block `b`, `b.next.prev = b` and `b.prev.next = b` whenever those
neighbors exist. -/
theorem C2_registry_invariant (ops : List HeapOp)
    (hv : ValidFrom initHeap ops) :
    ∃ sf : VldHeapState, run initHeap ops = .ok sf ∧ registryOk sf := by
  obtain ⟨sf, hrun, hinv⟩ := run_validFrom hv registryInv_init
  exact ⟨sf, hrun, registryInv_registryOk hinv⟩

/-- Witness for C2: one allocation from the fresh heap. -/
theorem C2_registry_invariant_witness :
    ∃ sf : VldHeapState,
      run initHeap [HeapOp.alloc 8 (some "f") 7 (some 5)] = .ok sf ∧
      registryOk sf :=
  C2_registry_invariant _ (ValidFrom.cons
    ⟨by decide, by decide, by decide, fun a ha => by cases ha; rfl⟩
    rfl (ValidFrom.nil _))

/-! ## Load-cycle lemmas -/

theorem runLife_cons (s : VldLifecycleState) (op : LifeOp) (ops : List LifeOp) :
    runLife s (op :: ops) = runLife (lifeStep s op) ops := rfl

theorem runLife_append (s : VldLifecycleState) (l1 l2 : List LifeOp) :
    runLife s (l1 ++ l2) = runLife (runLife s l1) l2 :=
  List.foldl_append _ _ _ _

/-- Tracked-allocation events never change the load depth. -/
theorem runLife_track_depth : ∀ (k : Nat) (s : VldLifecycleState),
    (runLife s (List.replicate k .track)).loadDepth = s.loadDepth
  | 0, _ => rfl
  | k + 1, s => by
    rw [List.replicate_succ, runLife_cons, runLife_track_depth k]
    simp only [lifeStep]
    split <;> rfl

/-- While the module is active, each tracked-allocation event bumps the
count by one. -/
theorem runLife_track_count : ∀ (k : Nat) (s : VldLifecycleState),
    1 ≤ s.loadDepth →
    (runLife s (List.replicate k .track)).trackedCount = s.trackedCount + k
  | 0, _, _ => rfl
  | k + 1, s, h => by
    rw [List.replicate_succ, runLife_cons]
    rw [runLife_track_count k _ (by simp [lifeStep, h])]
    simp only [lifeStep, if_pos h]
    omega

/-- Tracked-allocation events never change the heap or the report count. -/
theorem runLife_track_rest : ∀ (k : Nat) (s : VldLifecycleState),
    (runLife s (List.replicate k .track)).heap = s.heap ∧
    (runLife s (List.replicate k .track)).reportsFired = s.reportsFired
  | 0, _ => ⟨rfl, rfl⟩
  | k + 1, s => by
    rw [List.replicate_succ, runLife_cons]
    obtain ⟨h1, h2⟩ := runLife_track_rest k (lifeStep s .track)
    rw [h1, h2]
    simp only [lifeStep]
    split <;> exact ⟨rfl, rfl⟩

/-! ## Lifecycle claims -/

/-- Claim C3: For every sequence of onLoad/onUnload events, tracked-allocation
counts accumulate across nested activations without reset: on the
load-depth sequence 0→1→2 the counts from both activations add up, a 2→1
unload performs no reset and leaves the observable count (and all tracking
state) unchanged, and the teardown report fires exactly on 1→0
transitions. -/
theorem C3_nested_load_accumulation :
    (∀ (s : VldLifecycleState) (k1 k2 : Nat), s.loadDepth = 0 →
      VLDGetLeaksCount (runLife s (LifeOp.load ::
        (List.replicate k1 .track ++ LifeOp.load :: List.replicate k2 .track)))
        = (k1 : Int) + (k2 : Int)) ∧
    (∀ t : VldLifecycleState, 2 ≤ t.loadDepth →
      VLDGetLeaksCount (lifeStep t .unload) = VLDGetLeaksCount t ∧
      (lifeStep t .unload).trackedCount = t.trackedCount ∧
      (lifeStep t .unload).heap = t.heap ∧
      (lifeStep t .unload).reportsFired = t.reportsFired) ∧
    (∀ t : VldLifecycleState, (lifeStep t .unload).reportsFired =
      t.reportsFired + (if t.loadDepth = 1 then 1 else 0)) := by
  refine ⟨?_, ?_, ?_⟩
  · intro s k1 k2 hdepth
    rw [runLife_cons, runLife_append]
    set s1 := lifeStep s .load with hs1
    have hd1 : s1.loadDepth = 1 := by
      simp [hs1, lifeStep, hdepth]
    have hc1 : s1.trackedCount = 0 := by
      simp [hs1, lifeStep, hdepth]
    set s2 := runLife s1 (List.replicate k1 .track) with hs2
    have hd2 : s2.loadDepth = 1 := by
      rw [hs2, runLife_track_depth, hd1]
    have hc2 : s2.trackedCount = k1 := by
      rw [hs2, runLife_track_count k1 _ (by rw [hd1]), hc1]
      omega
    rw [runLife_cons]
    have h3 : lifeStep s2 .load = { s2 with loadDepth := s2.loadDepth + 1 } := by
      simp [lifeStep, hd2]
    rw [h3]
    have hfd : (runLife { s2 with loadDepth := s2.loadDepth + 1 }
        (List.replicate k2 .track)).loadDepth = 2 := by
      rw [runLife_track_depth]
      simp [hd2]
    have hfc : (runLife { s2 with loadDepth := s2.loadDepth + 1 }
        (List.replicate k2 .track)).trackedCount = k1 + k2 := by
      rw [runLife_track_count k2 _ (by simp)]
      simp [hc2]
    unfold VLDGetLeaksCount
    rw [if_pos (by rw [hfd]; omega), hfc]
    push_cast
    ring
  · intro t ht
    have hne : ¬t.loadDepth = 1 := by omega
    have h1 : lifeStep t .unload = { t with loadDepth := t.loadDepth - 1 } := by
      simp [lifeStep, hne, ht]
    rw [h1]
    refine ⟨?_, rfl, rfl, rfl⟩
    unfold VLDGetLeaksCount
    rw [if_pos (show (1 : Nat) ≤ t.loadDepth - 1 by omega),
      if_pos (show (1 : Nat) ≤ t.loadDepth by omega)]
  · intro t
    by_cases h1 : t.loadDepth = 1
    · simp [lifeStep, h1]
    · by_cases h2 : 2 ≤ t.loadDepth
      · simp [lifeStep, h1, h2]
      · simp [lifeStep, h1, h2]

/-- A concrete depth-2 lifecycle state used in witnesses. -/
def lifeState2 : VldLifecycleState :=
  { loadDepth := 2, trackedCount := 5, heap := initHeap, reportsFired := 3 }

/-- A concrete depth-1 lifecycle state used in witnesses. -/
def lifeState1 : VldLifecycleState :=
  { loadDepth := 1, trackedCount := 5, heap := initHeap, reportsFired := 3 }

/-- Witness for C3 at concrete inputs. -/
theorem C3_nested_load_accumulation_witness :
    VLDGetLeaksCount (runLife initLife (LifeOp.load ::
      (List.replicate 1 .track ++ LifeOp.load :: List.replicate 2 .track)))
      = (1 : Int) + (2 : Int) ∧
    VLDGetLeaksCount (lifeStep lifeState2 .unload) = VLDGetLeaksCount lifeState2 ∧
    (lifeStep lifeState1 .unload).reportsFired =
      3 + (if lifeState1.loadDepth = 1 then 1 else 0) :=
  ⟨C3_nested_load_accumulation.1 initLife 1 2 rfl,
    (C3_nested_load_accumulation.2.1 lifeState2 (by decide)).1,
    C3_nested_load_accumulation.2.2 lifeState1⟩

/-- Claim C4: After every 1→0 load transition (module fully unloaded), the
leak-count query returns the sentinel −1 rather than any count observed
while the module was active, whatever the prior history was. -/
theorem C4_query_sentinel_after_unload (s : VldLifecycleState)
    (hdepth : s.loadDepth = 1) :
    VLDGetLeaksCount (lifeStep s .unload) = -1 := by
  simp [lifeStep, hdepth, VLDGetLeaksCount]

/-- Witness for C4: load once, unload, query. -/
theorem C4_query_sentinel_after_unload_witness :
    VLDGetLeaksCount (lifeStep (lifeStep initLife .load) .unload) = -1 :=
  C4_query_sentinel_after_unload _ rfl

/-! ## Serial-number and allocation claims -/

/-- Claim C1: For every load cycle, the serial-number generator is reset to
0 on the 0→1 load transition, so the first successful allocation made
after any full reset — including second and later load cycles — receives
serial number 0: after `onLoad` from depth 0, any completed operation
sequence with no successful allocation followed by a successful `vldnew`
stores serial number 0 in the returned block's header. -/
theorem C1_serial_reset_on_first_load (s : VldLifecycleState)
    (ops : List HeapOp) (s1 s2 : VldHeapState) (size : Nat)
    (file : Option String) (line : Int) (a p : Nat)
    (hdepth : s.loadDepth = 0)
    (hrun : run (lifeStep s .load).heap ops = .ok s1)
    (hnosucc : countSucc ops = 0)
    (halloc : vldnew s1 size file line (some a) = .ok (s2, some p)) :
    ∃ hdr : vldblockheader_t,
      memRead s2.mem (VLDBLOCKHEADER p) = some hdr ∧ hdr.serialNumber = 0 := by
  have hheap : (lifeStep s .load).heap = initHeap := by
    simp [lifeStep, hdepth]
  have hser1 : s1.serialnumber = 0 := by
    have h := run_serial_no_alloc hrun hnosucc
    rw [hheap] at h
    exact h
  obtain ⟨hret, _, _, hdr, hread, _, _, hsn, _, _⟩ := vldnew_ok_some halloc
  injection hret with hret'
  subst hret'
  have hba : VLDBLOCKHEADER (VLDBLOCKDATA a) = a := by
    unfold VLDBLOCKHEADER VLDBLOCKDATA
    omega
  rw [hba]
  exact ⟨hdr, hread, by rw [hsn, hser1]⟩

/-- The header written by the witness allocation below. -/
def wHeader : vldblockheader_t :=
  { file := some "g", line := 2, serialNumber := 0, size := 1,
    next := none, prev := none }

/-- The heap state after the witness allocation below. -/
def wState : VldHeapState :=
  { mem := [(3, wHeader)], g_vldBlockList := some 3, serialnumber := 1 }

/-- Witness for C1: load from depth 0, one failed allocation, then a
successful one; it receives serial number 0. -/
theorem C1_serial_reset_on_first_load_witness :
    initLife.loadDepth = 0 ∧
    run (lifeStep initLife .load).heap [HeapOp.alloc 1 (some "g") 2 none] =
      .ok initHeap ∧
    countSucc [HeapOp.alloc 1 (some "g") 2 none] = 0 ∧
    vldnew initHeap 1 (some "g") 2 (some 3) =
      .ok (wState, some (VLDBLOCKDATA 3)) ∧
    (∃ hdr : vldblockheader_t,
      memRead wState.mem (VLDBLOCKHEADER (VLDBLOCKDATA 3)) = some hdr ∧
      hdr.serialNumber = 0) :=
  ⟨rfl, rfl, rfl, rfl,
    C1_serial_reset_on_first_load initLife [HeapOp.alloc 1 (some "g") 2 none]
      initHeap wState 1 (some "g") 2 3 (VLDBLOCKDATA 3) rfl rfl rfl rfl⟩

/-- Claim C5: For every block successfully returned by
`allocate(size, originFile, originLine)`, recovering the header from the
returned data pointer by the fixed documented offset and reading its
`size`, `file` and `line` fields yields exactly the values passed at
allocation time. -/
theorem C5_header_roundtrip {s s' : VldHeapState} {size : Nat}
    {file : Option String} {line : Int} {a p : Nat}
    (halloc : vldnew s size file line (some a) = .ok (s', some p)) :
    ∃ hdr : vldblockheader_t,
      memRead s'.mem (VLDBLOCKHEADER p) = some hdr ∧
      hdr.size = size ∧ hdr.file = file ∧ hdr.line = line := by
  obtain ⟨hret, _, _, hdr, hread, hfile, hline, _, hsize, _⟩ :=
    vldnew_ok_some halloc
  injection hret with hret'
  subst hret'
  have hba : VLDBLOCKHEADER (VLDBLOCKDATA a) = a := by
    unfold VLDBLOCKHEADER VLDBLOCKDATA
    omega
  rw [hba]
  exact ⟨hdr, hread, hsize, hfile, hline⟩

/-- The header written by the C5 witness allocation. -/
def w5Header : vldblockheader_t :=
  { file := some "x", line := 9, serialNumber := 0, size := 4,
    next := none, prev := none }

/-- The heap state after the C5 witness allocation. -/
def w5State : VldHeapState :=
  { mem := [(7, w5Header)], g_vldBlockList := some 7, serialnumber := 1 }

/-- Witness for C5 at a concrete allocation. -/
theorem C5_header_roundtrip_witness :
    vldnew initHeap 4 (some "x") 9 (some 7) =
      .ok (w5State, some (VLDBLOCKDATA 7)) ∧
    (∃ hdr : vldblockheader_t,
      memRead w5State.mem (VLDBLOCKHEADER (VLDBLOCKDATA 7)) = some hdr ∧
      hdr.size = 4 ∧ hdr.file = some "x" ∧ hdr.line = 9) :=
  ⟨rfl, @C5_header_roundtrip initHeap w5State 4 (some "x") 9 7
    (VLDBLOCKDATA 7) rfl⟩

/-- Claim C6: Within one load cycle (started from the reset heap), for every
pair of successful allocations the earlier one receives a strictly smaller
serial number, and all serial numbers of the cycle are pairwise distinct —
provided the `size_t` generator is not exhausted. -/
theorem C6_serials_increasing (ops : List HeapOp) (sf : VldHeapState)
    (l : List Nat) (hrun : runSerials initHeap ops = .ok (sf, l))
    (hbound : countSucc ops < SIZE_MOD) :
    List.Pairwise (· < ·) l ∧ l.Nodup := by
  obtain ⟨hl, _⟩ := runSerials_spec hrun (by simpa [initHeap] using hbound)
  subst hl
  exact ⟨List.pairwise_lt_range' _ _ 1 (by omega), List.nodup_range' _ _⟩

/-- Witness trace for C6: two successful allocations. -/
def w6Ops : List HeapOp :=
  [.alloc 1 (some "f") 1 (some 0), .alloc 1 (some "f") 1 (some 100)]

/-- Witness for C6: the recorded serials `[0, 1]` are increasing and
distinct. -/
theorem C6_serials_increasing_witness :
    List.Pairwise (· < ·) ([0, 1] : List Nat) ∧ ([0, 1] : List Nat).Nodup :=
  C6_serials_increasing w6Ops _ [0, 1] rfl (by decide)

/-- Claim C7: When the underlying OS-level heap allocation fails, `vldnew`
returns null and the whole allocator state — registry list, memory and
serial generator — is exactly as before the call. -/
theorem C7_alloc_failure_no_mutation (s : VldHeapState) (size : Nat)
    (file : Option String) (line : Int)
    (hpre : size > 0 ∧ file ≠ none ∧ line > 0) :
    vldnew s size file line none = .ok (s, none) :=
  vldnew_none_ok hpre

/-- Witness for C7 at a concrete failing allocation. -/
theorem C7_alloc_failure_no_mutation_witness :
    ((1 : Nat) > 0 ∧ (some "f" : Option String) ≠ none ∧ (1 : Int) > 0) ∧
    vldnew initHeap 1 (some "f") 1 none = .ok (initHeap, none) :=
  ⟨⟨by decide, by decide, by decide⟩,
    C7_alloc_failure_no_mutation initHeap 1 (some "f") 1
      ⟨by decide, by decide, by decide⟩⟩

/-- Claim C8: A call to allocate with `size = 0`, a null `originFile`, or a
non-positive `originLine` fails fast through an assertion (aborts) rather
than returning an error value; conversely, whenever `size > 0`, the file
is non-null and the line positive, the assertion branch is unreachable. -/
theorem C8_assert_on_bad_args (s : VldHeapState) (size : Nat)
    (file : Option String) (line : Int) (allocAddr : Option Nat) :
    vldnew s size file line allocAddr = .abort ↔
      ¬(size > 0 ∧ file ≠ none ∧ line > 0) :=
  vldnew_abort_iff

/-- Claim C10: A failed OS-level allocation does not advance the
serial-number generator, so the serial numbers of the successful
allocations from a reset heap form the consecutive sequence 0, 1, 2, …
with no gaps, regardless of interleaved failed allocations — provided the
`size_t` generator is not exhausted. -/
theorem C10_serials_consecutive (ops : List HeapOp) (sf : VldHeapState)
    (l : List Nat) (hrun : runSerials initHeap ops = .ok (sf, l))
    (hbound : countSucc ops < SIZE_MOD) :
    l = List.range (countSucc ops) ∧
    ∀ (s : VldHeapState) (size : Nat) (file : Option String) (line : Int),
      size > 0 → file ≠ none → line > 0 →
      vldnew s size file line none = .ok (s, none) := by
  constructor
  · obtain ⟨hl, _⟩ := runSerials_spec hrun (by simpa [initHeap] using hbound)
    rw [hl, List.range_eq_range']
    rfl
  · intro s size file line h1 h2 h3
    exact vldnew_none_ok ⟨h1, h2, h3⟩

/-- Witness trace for C10: successful, failed, successful allocation. -/
def w10Ops : List HeapOp :=
  [.alloc 1 (some "f") 1 (some 0), .alloc 1 (some "f") 1 none,
   .alloc 1 (some "f") 1 (some 100)]

/-- Witness for C10: serials `[0, 1]` with a failed allocation in
between. -/
theorem C10_serials_consecutive_witness :
    ([0, 1] : List Nat) = List.range (countSucc w10Ops) ∧
    (∀ (s : VldHeapState) (size : Nat) (file : Option String) (line : Int),
      size > 0 → file ≠ none → line > 0 →
      vldnew s size file line none = .ok (s, none)) :=
  C10_serials_consecutive w10Ops _ [0, 1] rfl (by decide)

/-! ## Lock discipline (C9) -/

/-- Claim C9, counterexample: The claim states the registry lock is never
held across the underlying OS-level allocation or release call.  In
`vldnew` the lock is indeed taken only after `RtlAllocateHeap`, but in
`vlddelete` the `scoped_lock` of line 212 is still held when `RtlFreeHeap`
runs at line 225 (its scope ends at the end of the function), so the
conjunction asserted by the claim is false. -/
theorem C9_lock_never_across_os_calls_counterexample :
    ¬(lockHeldDuring vldnewActions .osAlloc = false ∧
      lockHeldDuring vlddeleteActions .osRelease = false) := by
  decide

/-- Claim C9, amended: `vldnew` and `vlddelete` serialize all registry
mutation through the single registry lock: in `vldnew` the lock is not
held across the OS-level allocation (nor the header fill) and is held for
the link step; in `vlddelete` the lock is held for the unlink step — and
it is also held across the OS-level release call. -/
theorem C9_lock_discipline :
    lockHeldDuring vldnewActions .osAlloc = false ∧
    lockHeldDuring vldnewActions .headerFill = false ∧
    lockHeldDuring vldnewActions .linkStep = true ∧
    lockHeldDuring vlddeleteActions .unlinkStep = true ∧
    lockHeldDuring vlddeleteActions .osRelease = true := by
  decide

end Vld
